import Mathlib

/-!
Verification development for the image-tree synchronization tool
`sync_resize.py`.  The Python source is shallowly embedded below:

* the glob matching of `fnmatch.fnmatch` (used through `filter_tree`) is
  embedded as an executable matcher over character lists; the embedding
  fixes the POSIX behaviour of `os.path.normcase` (the identity), so
  matching is case-sensitive and the path separator is `/`;
* `determine_actions` is embedded over lists, with Python's `set`
  materialization rendered as `List.dedup` (set iteration order is
  unspecified in Python; the embedding iterates in first-occurrence
  order, and the statements proved below only depend on membership or on
  the copy/delete phase structure, which hold for every iteration order);
* the action-execution loop of `sync_images` is embedded twice: once as
  the pure effect `applyActions` of a fully successful run on the set of
  destination paths, and once as `sync_exec`, which models the
  exception behaviour of the loop (the body has no try/except, so the
  first raising OS call escapes the `for` loop and is only caught by the
  function-level `logger.catch`, abandoning the remaining actions and
  the final totals log line);
* the size computation of `PIL.Image.thumbnail` and `ImageOps.pad`
  (external library calls performed by `resize_image`) is embedded in
  exact (rational-free, cross-multiplied) integer arithmetic;
* the directory walk of `scan_tree` is embedded over an inductive
  filesystem forest whose entries record how `os.DirEntry.is_dir`
  with `follow_symlinks=False` classifies them.
-/

namespace SyncResize

/-- Scans a character list for the closing bracket of a glob character
class: returns the class body (characters before the first unescaped
close bracket) and the remainder after it, or `none` when the class is
unterminated, in which case `fnmatch` treats the open bracket literally. -/
def findClose : List Char → Option (List Char × List Char)
  | [] => none
  | c :: rest =>
    if c = ']' then some ([], rest)
    else
      match findClose rest with
      | none => none
      | some (body, after) => some (c :: body, after)

/-- Parses a glob character class once the optional negation mark has
been consumed: a close bracket in the first position is a literal
member, and a class with no terminating close bracket is not a class at
all. -/
def parseClassAfterNeg (neg : Bool) (cs1 : List Char) :
    Option (Bool × List Char × List Char) :=
  match cs1 with
  | [] => none
  | c :: t =>
    if c = ']' then
      match findClose t with
      | none => none
      | some (body, after) => some (neg, ']' :: body, after)
    else
      match findClose (c :: t) with
      | none => none
      | some (body, after) => some (neg, body, after)

/-- Parses the body of a glob character class, mirroring
`fnmatch.translate`: an initial exclamation mark negates the class, a
close bracket immediately after it is a literal member, and a class with
no terminating close bracket is not a class at all. -/
def parseClassBody (cs : List Char) : Option (Bool × List Char × List Char) :=
  match cs with
  | [] => none
  | c :: t =>
    if c = '!' then parseClassAfterNeg true t
    else parseClassAfterNeg false (c :: t)

/-- Membership of a character in a glob character-class body: a dash
between two characters denotes an inclusive range (an empty range
matches nothing), and any other character is a literal member, as in
`fnmatch.translate`. -/
def classMatch : List Char → Char → Bool
  | [], _ => false
  | a :: '-' :: b :: rest, c =>
    (decide (a ≤ c) && decide (c ≤ b)) || classMatch rest c
  | a :: rest, c => (a == c) || classMatch rest c

/-- Fueled core of the glob matcher of `fnmatch.fnmatchcase`: `*` matches
any (possibly empty) run of characters, `?` exactly one character, a
character class one character from the class, and anything else itself;
the whole pattern must consume the whole string (the translated regular
expression is anchored on both sides).  Every recursive call strictly
decreases `pattern.length + s.length`, so fuel
`pattern.length + s.length + 1` never runs out; `globMatchFuel_congr`
below proves this fuel irrelevance. -/
def globMatchFuel : Nat → List Char → List Char → Bool
  | 0, _, _ => false
  | _ + 1, [], s => s.isEmpty
  | fuel + 1, p :: ps, s =>
    if p = '*' then
      match s with
      | [] => globMatchFuel fuel ps []
      | _ :: t => globMatchFuel fuel ps s || globMatchFuel fuel (p :: ps) t
    else if p = '?' then
      match s with
      | [] => false
      | _ :: t => globMatchFuel fuel ps t
    else if p = '[' then
      match s with
      | [] => false
      | c :: t =>
        match parseClassBody ps with
        | some (neg, body, rest) =>
          (classMatch body c != neg) && globMatchFuel fuel rest t
        | none => ('[' == c) && globMatchFuel fuel ps t
    else
      match s with
      | [] => false
      | c :: t => (p == c) && globMatchFuel fuel ps t

/-- Glob matching of a whole pattern against a whole character list. -/
def globMatch (pattern s : List Char) : Bool :=
  globMatchFuel (pattern.length + s.length + 1) pattern s

/-- Embedding of `fnmatch.fnmatch(name, pat)` under the POSIX
`os.path.normcase` (the identity): case-sensitive glob matching of the
entire name against the entire pattern. -/
def fnmatch (name pat : String) : Bool :=
  globMatch pat.data name.data

/-- Embedding of `filter_tree`: keeps exactly the paths for which at
least one of the patterns glob-matches the whole relative-path string. -/
def filter_tree (paths : List String) (patterns : List String) : List String :=
  paths.filter (fun path => patterns.any (fun p => fnmatch path p))

/-- A relative path is eligible when at least one configured pattern
matches it; `filter_tree` keeps exactly the eligible paths. -/
def eligible (patterns : List String) (path : String) : Bool :=
  patterns.any (fun p => fnmatch path p)

/-- Embedding of the tagged action tuples produced by
`determine_actions`: a copy carries the absolute source and destination
paths, a delete the absolute destination path. -/
inductive Action where
  | copy (src : String) (dst : String) : Action
  | delete (dst : String) : Action
deriving DecidableEq

/-- Embedding of `pathlib` path joining in the POSIX embedding:
`Path(root) / rel` is the root, a separator, and the relative path. -/
def pjoin (root rel : String) : String :=
  root ++ "/" ++ rel

/-- Embedding of `determine_actions`: both inputs are materialized into
sets (here `List.dedup`, iterated in first-occurrence order; Python's
set iteration order is unspecified and nothing proved below depends on
it), then a copy action is emitted for every relative path in source
minus destination and a delete action for every relative path in
destination minus source, copies first. -/
def determine_actions (source_files dest_files : List String)
    (source_folder dest_folder : String) : List Action :=
  let src := source_files.dedup
  let dst := dest_files.dedup
  (src.filter (fun p => decide (p ∉ dst))).map
      (fun p => Action.copy (pjoin source_folder p) (pjoin dest_folder p))
    ++ (dst.filter (fun p => decide (p ∉ src))).map
      (fun p => Action.delete (pjoin dest_folder p))

/-- Effect of a fully successful pass of the `sync_images` action loop
on the set of absolute destination paths: `shutil.copyfile` creates (or
overwrites) the destination path and `os.remove` removes it.  File
contents, directory creation and the in-place resize do not change which
paths exist, so the state is just the list of present paths. -/
def applyActions : List Action → List String → List String
  | [], fs => fs
  | Action.copy _ dst :: rest, fs => applyActions rest (dst :: fs)
  | Action.delete dst :: rest, fs =>
    applyActions rest (fs.filter (fun y => decide (y ≠ dst)))

/-- Effect of a full successful run of `sync_images` on the destination
tree: the action plan for the two filtered scans is executed against the
set of absolute paths initially present under the destination root. -/
def sync_run (S D patterns : List String) (sr dr : String) : List String :=
  applyActions
    (determine_actions (filter_tree S patterns) (filter_tree D patterns) sr dr)
    (D.map (pjoin dr))

/-- Relative-path rendering of the destination tree after a full
successful run: the destination paths that are not planned for deletion,
followed by the newly copied source paths.  The first component of
`sync_images_invariant`-style reasoning shows it agrees with `sync_run`
pointwise. -/
def after_rel (S D patterns : List String) : List String :=
  D.filter (fun p => !(eligible patterns p && !(decide (p ∈ S))))
    ++ ((filter_tree S patterns).dedup.filter
      (fun p => decide (p ∉ (filter_tree D patterns).dedup)))

/-- Outcome of the `sync_images` action loop under the exception
behaviour of the source: the tallies of successful copies and deletes,
the surviving destination paths, and whether the loop ran to completion
(only then is the final totals line logged). -/
structure RunResult where
  copied : Nat
  deleted : Nat
  fs : List String
  finished : Bool
deriving DecidableEq

/-- Embedding of the `sync_images` action loop with failures: `oracle`
says whether the OS call for an action raises (permission error, disk
full); `os.remove` of a path that is not present raises
`FileNotFoundError`.  The loop body has no try/except, so the first
raising call escapes the `for` loop; the function-level `logger.catch`
then logs it and returns, abandoning every remaining action and the
final totals log line (`finished = false`). -/
def sync_exec (oracle : Action → Bool) :
    List Action → List String → Nat → Nat → RunResult
  | [], fs, c, d => ⟨c, d, fs, true⟩
  | a :: rest, fs, c, d =>
    if oracle a then ⟨c, d, fs, false⟩
    else
      match a with
      | Action.copy _ dst => sync_exec oracle rest (dst :: fs) (c + 1) d
      | Action.delete dst =>
        if dst ∈ fs then
          sync_exec oracle rest (fs.filter (fun y => decide (y ≠ dst))) c (d + 1)
        else ⟨c, d, fs, false⟩

/-- Ceiling division on naturals, the exact value of `math.ceil(a / b)`
for nonnegative integers. -/
def cdiv (a b : Nat) : Nat :=
  (a + b - 1) / b

/-- Pillow's `round_aspect` helper in the branch where the height is
pinned to the target: the scaled width `num / b` is rounded to its floor
or ceiling, whichever is closer to the exact aspect value (the floor on
ties, as Python's `min` keeps its first argument; the key denominator is
the pinned height, so the comparison cross-multiplies away), and clamped
to at least 1. -/
def round_aspect_w (num b : Nat) : Nat :=
  max (if num - num / b * b ≤ cdiv num b * b - num then num / b else cdiv num b) 1

/-- Pillow's `round_aspect` helper in the branch where the width is
pinned to the target: as `round_aspect_w`, except that the key treats a
zero candidate as distance zero (so a zero floor always wins) and the
candidates appear in the key's denominator, so the cross-multiplied
comparison carries both candidates as factors. -/
def round_aspect_h (num b : Nat) : Nat :=
  max (if num / b = 0 then num / b
       else if (num - num / b * b) * cdiv num b ≤ (cdiv num b * b - num) * (num / b)
       then num / b else cdiv num b) 1

/-- Exact-arithmetic embedding of the size computed by
`PIL.Image.thumbnail((tw, th))` on a `w` by `h` image (the external call
performed by `resize_image`): when the image already fits it is left
alone (never upscaled); otherwise the bounding dimension is kept and the
other is rounded from the exact aspect-preserving value.  Pillow
computes this with floats; the embedding uses the exact cross-multiplied
integer comparisons. -/
def thumbnail_size (w h tw th : Nat) : Nat × Nat :=
  if w ≤ tw ∧ h ≤ th then (w, h)
  else if w * th ≤ tw * h then (round_aspect_w (th * w) h, th)
  else (tw, round_aspect_h (tw * h) w)

/-- Output pixel dimensions of `resize_image` on a decoded `w` by `h`
image: first `img.thumbnail(size)`, then, when `square` is set,
`ImageOps.pad(img, size)` pastes the thumbnail centered on a canvas of
exactly the target dimensions. -/
def resized_size (w h : Nat) (size : Nat × Nat) (square : Bool) : Nat × Nat :=
  let t := thumbnail_size w h size.1 size.2
  if square then size else t

/-- ASCII lowercasing of a string, the embedding of `str.lower()` on the
extensions involved. -/
def strLower (s : String) : String :=
  String.mk (s.data.map Char.toLower)

/-- Whether a destination file suffix lowercases to a JPEG extension,
the embedding of `path.suffix.lower() in (".jpg", ".jpeg")`. -/
def isJpgSuffix (suffix : String) : Bool :=
  strLower suffix == ".jpg" || strLower suffix == ".jpeg"

/-- The three mutually exclusive encodes at the end of `resize_image`:
compositing onto a white canvas with the alpha channel as mask, pasting
onto a white canvas without a mask, or saving the image as it is. -/
inductive SaveBranch where
  | maskComposite : SaveBranch
  | plainPaste : SaveBranch
  | direct : SaveBranch
deriving DecidableEq

/-- Branch selection of `resize_image` lines 58-67: the mask composite
requires the decoded original format to be exactly `PNG` with the
in-memory mode still `RGBA`; the maskless paste requires the original
format to be exactly `GIF`; everything else is saved directly. -/
def save_branch (originalFormat mode suffix : String) : SaveBranch :=
  if originalFormat = "PNG" ∧ mode = "RGBA" ∧ isJpgSuffix suffix = true then
    SaveBranch.maskComposite
  else if originalFormat = "GIF" ∧ isJpgSuffix suffix = true then
    SaveBranch.plainPaste
  else
    SaveBranch.direct

/-- Whether a PIL pixel mode carries an alpha channel (the modes Pillow
documents as having one); a decoded image whose mode is in this list
came from an original format that had an alpha channel. -/
def modeHasAlpha (mode : String) : Bool :=
  decide (mode ∈ ["RGBA", "LA", "PA", "RGBa", "La"])

/-- File-level embedding of `resize_image`: decoding the on-disk bytes
is the external `Image.open`; when it fails (`UnidentifiedImageError`)
the function logs a warning (second component `true`) and returns with
the file bytes untouched; otherwise the decoded image is transformed and
re-encoded over the same path (`render` stands for the thumbnail, pad,
flatten and save pipeline).  The function is total: the failure path
raises nothing, so the surrounding run is never aborted by it. -/
def resize_image {Img : Type} (decode : List UInt8 → Option Img)
    (render : Img → Nat × Nat → Bool → String → List UInt8)
    (bytes : List UInt8) (size : Nat × Nat) (square : Bool)
    (suffix : String) : List UInt8 × Bool :=
  match decode bytes with
  | none => (bytes, true)
  | some img => (render img size square suffix, false)

mutual
/-- A directory entry as classified by `os.DirEntry.is_dir` with
`follow_symlinks=False`: a regular file, a real directory with its
children, a symbolic link whose target is a directory (the link target
forest is carried but `is_dir` is `False` for it), or any other
non-directory entry (symlink to a file, socket, and so on). -/
inductive FSEntry where
  | file (name : String) : FSEntry
  | dir (name : String) (children : FSForest) : FSEntry
  | symlinkDir (name : String) (target : FSForest) : FSEntry
  | special (name : String) : FSEntry
/-- A finite list of directory entries, the result of `os.scandir`. -/
inductive FSForest where
  | nil : FSForest
  | cons (e : FSEntry) (es : FSForest) : FSForest
end

/-- Relative-path joining of `os.path.relpath(entry.path, root)` in the
POSIX embedding: the root itself contributes the empty prefix. -/
def rjoin (pre name : String) : String :=
  if pre = "" then name else pre ++ "/" ++ name

/-- Embedding of `scan_tree`: every entry for which
`is_dir(follow_symlinks=False)` holds (exactly the real directories) is
recursed into; every other entry — regular file, symbolic link of any
kind, special file — is yielded as a path relative to the root.  A
symbolic link to a directory is therefore yielded as a leaf and its
target forest is never visited. -/
def scan_tree (pre : String) : FSForest → List String
  | FSForest.nil => []
  | FSForest.cons (FSEntry.file n) es => rjoin pre n :: scan_tree pre es
  | FSForest.cons (FSEntry.dir n cs) es =>
    scan_tree (rjoin pre n) cs ++ scan_tree pre es
  | FSForest.cons (FSEntry.symlinkDir n _) es => rjoin pre n :: scan_tree pre es
  | FSForest.cons (FSEntry.special n) es => rjoin pre n :: scan_tree pre es

/-- Modelled from the spec: the relative paths of the regular files at
any depth under the root, descending real directories only (symbolic
links to directories are not followed).  This is the claim-side reading
of what `scan_tree` yields, used to compare against the embedding. -/
def regular_files (pre : String) : FSForest → List String
  | FSForest.nil => []
  | FSForest.cons (FSEntry.file n) es => rjoin pre n :: regular_files pre es
  | FSForest.cons (FSEntry.dir n cs) es =>
    regular_files (rjoin pre n) cs ++ regular_files pre es
  | FSForest.cons (FSEntry.symlinkDir _ _) es => regular_files pre es
  | FSForest.cons (FSEntry.special _) es => regular_files pre es

/-- The paths a faithful walk of the forest can produce: a non-directory
entry at the head yields its own relative path, a real directory at the
head yields whatever its children yield under the extended prefix, and
anything yielded by the tail is yielded by the whole forest.  No rule
descends into the target of a symbolic link. -/
inductive Yields : String → FSForest → String → Prop where
  | headFile : ∀ pre n es, Yields pre (FSForest.cons (FSEntry.file n) es) (rjoin pre n)
  | headSymlinkDir : ∀ pre n t es,
      Yields pre (FSForest.cons (FSEntry.symlinkDir n t) es) (rjoin pre n)
  | headSpecial : ∀ pre n es,
      Yields pre (FSForest.cons (FSEntry.special n) es) (rjoin pre n)
  | headDir : ∀ pre n cs es p, Yields (rjoin pre n) cs p →
      Yields pre (FSForest.cons (FSEntry.dir n cs) es) p
  | tail : ∀ pre e es p, Yields pre es p → Yields pre (FSForest.cons e es) p

/-! Helper lemmas shared by the claim theorems. -/

theorem string_data_append (a b : String) : (a ++ b).data = a.data ++ b.data := rfl

theorem string_append_left_cancel {s a b : String} (h : s ++ a = s ++ b) : a = b := by
  apply String.ext
  have h2 : (s ++ a).data = (s ++ b).data := by rw [h]
  rw [string_data_append, string_data_append] at h2
  exact List.append_cancel_left h2

theorem pjoin_injective (root : String) : Function.Injective (pjoin root) := by
  intro a b h
  exact string_append_left_cancel h

theorem copy_action_injective (sr dr : String) :
    Function.Injective (fun p => Action.copy (pjoin sr p) (pjoin dr p)) := by
  intro a b h
  simp only [Action.copy.injEq] at h
  exact pjoin_injective dr h.2

theorem delete_action_injective (dr : String) :
    Function.Injective (fun p => Action.delete (pjoin dr p)) := by
  intro a b h
  simp only [Action.delete.injEq] at h
  exact pjoin_injective dr h

theorem mem_filter_tree {paths patterns : List String} {p : String} :
    p ∈ filter_tree paths patterns ↔ p ∈ paths ∧ eligible patterns p = true := by
  simp [filter_tree, eligible, List.mem_filter]

theorem applyActions_append (l1 l2 : List Action) (fs : List String) :
    applyActions (l1 ++ l2) fs = applyActions l2 (applyActions l1 fs) := by
  induction l1 generalizing fs with
  | nil => rfl
  | cons a rest ih =>
    cases a with
    | copy s d => simp [applyActions, ih]
    | delete d => simp [applyActions, ih]

theorem mem_applyActions_copies (ps : List String) (fsrc ftgt : String → String)
    (fs : List String) (x : String) :
    x ∈ applyActions (ps.map fun p => Action.copy (fsrc p) (ftgt p)) fs
      ↔ x ∈ fs ∨ ∃ p ∈ ps, x = ftgt p := by
  induction ps generalizing fs with
  | nil => simp [applyActions]
  | cons q rest ih =>
    simp only [List.map_cons, applyActions]
    rw [ih, List.exists_mem_cons_iff, List.mem_cons]
    tauto

theorem mem_applyActions_deletes (ps : List String) (ftgt : String → String)
    (fs : List String) (x : String) :
    x ∈ applyActions (ps.map fun p => Action.delete (ftgt p)) fs
      ↔ x ∈ fs ∧ ∀ p ∈ ps, x ≠ ftgt p := by
  induction ps generalizing fs with
  | nil => simp [applyActions]
  | cons q rest ih =>
    simp only [List.map_cons, applyActions]
    rw [ih, List.forall_mem_cons, List.mem_filter, decide_eq_true_eq]
    tauto

/-- A destination absolute path of the form root-slash-relative is
present after a full successful run exactly when its relative path is
present under the source (for eligible paths) or was already present
under the destination (for non-eligible paths). -/
theorem mem_sync_run (S D patterns : List String) (sr dr : String) (p : String) :
    pjoin dr p ∈ sync_run S D patterns sr dr
      ↔ (if eligible patterns p = true then p ∈ S else p ∈ D) := by
  unfold sync_run determine_actions
  rw [applyActions_append, mem_applyActions_deletes, mem_applyActions_copies]
  have hinj := pjoin_injective dr
  have hD : pjoin dr p ∈ D.map (pjoin dr) ↔ p ∈ D := by
    simp only [List.mem_map]
    constructor
    · rintro ⟨q, hq, h⟩
      rwa [← hinj h]
    · intro h; exact ⟨p, h, rfl⟩
  have hcopy : (∃ q ∈ (filter_tree S patterns).dedup.filter
        (fun q => decide (q ∉ (filter_tree D patterns).dedup)),
        pjoin dr p = pjoin dr q)
      ↔ (p ∈ S ∧ eligible patterns p = true ∧ p ∉ filter_tree D patterns) := by
    constructor
    · rintro ⟨q, hq, h⟩
      obtain rfl := hinj h
      rw [List.mem_filter] at hq
      have h1 := List.mem_dedup.mp hq.1
      rw [mem_filter_tree] at h1
      refine ⟨h1.1, h1.2, ?_⟩
      simpa [List.mem_dedup] using hq.2
    · rintro ⟨h1, h2, h3⟩
      refine ⟨p, ?_, rfl⟩
      rw [List.mem_filter]
      constructor
      · rw [List.mem_dedup, mem_filter_tree]; exact ⟨h1, h2⟩
      · simpa [List.mem_dedup] using h3
  have hdel : (∀ q ∈ (filter_tree D patterns).dedup.filter
        (fun q => decide (q ∉ (filter_tree S patterns).dedup)),
        pjoin dr p ≠ pjoin dr q)
      ↔ ¬(p ∈ D ∧ eligible patterns p = true ∧ p ∉ filter_tree S patterns) := by
    constructor
    · intro hall ⟨h1, h2, h3⟩
      apply hall p _ rfl
      rw [List.mem_filter]
      constructor
      · rw [List.mem_dedup, mem_filter_tree]; exact ⟨h1, h2⟩
      · simpa [List.mem_dedup] using h3
    · intro hn q hq heq
      obtain rfl := hinj heq
      rw [List.mem_filter] at hq
      have h1 := List.mem_dedup.mp hq.1
      rw [mem_filter_tree] at h1
      apply hn
      refine ⟨h1.1, h1.2, ?_⟩
      simpa [List.mem_dedup] using hq.2
  rw [hD, hcopy, hdel]
  by_cases he : eligible patterns p = true
  · simp only [he, if_true]
    rw [mem_filter_tree, mem_filter_tree]
    by_cases hs : p ∈ S <;> by_cases hd : p ∈ D <;> simp [hs, hd, he]
  · simp only [he, if_false]
    have he' : eligible patterns p = false := by
      cases h : eligible patterns p
      · rfl
      · exact absurd h he
    rw [mem_filter_tree, mem_filter_tree]
    simp [he']

theorem determine_actions_nil (A B : List String) (sr dr : String)
    (h : ∀ p, p ∈ A ↔ p ∈ B) : determine_actions A B sr dr = [] := by
  have h1 : A.dedup.filter (fun p => decide (p ∉ B.dedup)) = [] := by
    apply List.filter_eq_nil_iff.mpr
    intro a ha
    simp only [List.mem_dedup] at ha ⊢
    simp [(h a).mp ha]
  have h2 : B.dedup.filter (fun p => decide (p ∉ A.dedup)) = [] := by
    apply List.filter_eq_nil_iff.mpr
    intro a ha
    simp only [List.mem_dedup] at ha ⊢
    simp [(h a).mpr ha]
  simp only [determine_actions]
  rw [h1, h2]
  rfl

theorem findClose_length : ∀ (cs body after : List Char),
    findClose cs = some (body, after) → after.length < cs.length := by
  intro cs
  induction cs with
  | nil => intro body after h; simp [findClose] at h
  | cons c rest ih =>
    intro body after h
    simp only [findClose] at h
    by_cases hc : c = ']'
    · rw [if_pos hc] at h
      simp only [Option.some.injEq, Prod.mk.injEq] at h
      rw [← h.2]
      simp
    · rw [if_neg hc] at h
      cases hm : findClose rest with
      | none => rw [hm] at h; simp at h
      | some pr =>
        obtain ⟨b2, a2⟩ := pr
        rw [hm] at h
        simp only [Option.some.injEq, Prod.mk.injEq] at h
        rw [← h.2]
        exact Nat.lt_trans (ih b2 a2 hm) (Nat.lt_succ_self _)

theorem parseClassAfterNeg_length : ∀ (neg : Bool) (cs1 : List Char)
    (neg2 : Bool) (body rest : List Char),
    parseClassAfterNeg neg cs1 = some (neg2, body, rest) →
    rest.length < cs1.length + 1 := by
  intro neg cs1 neg2 body rest h
  cases cs1 with
  | nil => simp [parseClassAfterNeg] at h
  | cons c t =>
    simp only [parseClassAfterNeg] at h
    by_cases hc : c = ']'
    · rw [if_pos hc] at h
      cases hm : findClose t with
      | none => rw [hm] at h; simp at h
      | some pr =>
        obtain ⟨b2, a2⟩ := pr
        rw [hm] at h
        simp only [Option.some.injEq, Prod.mk.injEq] at h
        rw [← h.2.2]
        have := findClose_length t b2 a2 hm
        simp only [List.length_cons]
        omega
    · rw [if_neg hc] at h
      cases hm : findClose (c :: t) with
      | none => rw [hm] at h; simp at h
      | some pr =>
        obtain ⟨b2, a2⟩ := pr
        rw [hm] at h
        simp only [Option.some.injEq, Prod.mk.injEq] at h
        rw [← h.2.2]
        have := findClose_length (c :: t) b2 a2 hm
        simp only [List.length_cons] at this ⊢
        omega

theorem parseClassBody_length : ∀ (cs : List Char)
    (neg : Bool) (body rest : List Char),
    parseClassBody cs = some (neg, body, rest) → rest.length ≤ cs.length := by
  intro cs neg body rest h
  cases cs with
  | nil => simp [parseClassBody] at h
  | cons c t =>
    simp only [parseClassBody] at h
    by_cases hc : c = '!'
    · rw [if_pos hc] at h
      have := parseClassAfterNeg_length true t neg body rest h
      simp only [List.length_cons]
      omega
    · rw [if_neg hc] at h
      have := parseClassAfterNeg_length false (c :: t) neg body rest h
      simp only [List.length_cons] at this ⊢
      omega

/-- Fuel irrelevance of the glob matcher: any fuel beyond the combined
length of pattern and string gives the same answer, so the fuel used in
`globMatch` is sufficient. -/
theorem globMatchFuel_congr : ∀ (f g : Nat) (p s : List Char),
    p.length + s.length < f → p.length + s.length < g →
    globMatchFuel f p s = globMatchFuel g p s := by
  intro f
  induction f with
  | zero =>
    intro g p s hf hg
    exact absurd hf (Nat.not_lt_zero _)
  | succ f ih =>
    intro g p s hf hg
    obtain ⟨g', rfl⟩ : ∃ g', g = g' + 1 := ⟨g - 1, by omega⟩
    cases p with
    | nil => rfl
    | cons a ps =>
      simp only [List.length_cons] at hf hg
      by_cases ha1 : a = '*'
      · cases s with
        | nil =>
          simp only [globMatchFuel, if_pos ha1]
          exact ih g' ps [] (by simp at hf hg ⊢; omega) (by simp at hf hg ⊢; omega)
        | cons c t =>
          simp only [globMatchFuel, if_pos ha1, List.length_cons]
          rw [ih g' ps (c :: t) (by simp at hf hg ⊢; omega) (by simp at hf hg ⊢; omega),
            ih g' (a :: ps) t (by simp at hf hg ⊢; omega) (by simp at hf hg ⊢; omega)]
      · by_cases ha2 : a = '?'
        · cases s with
          | nil => simp only [globMatchFuel, if_neg ha1, if_pos ha2]
          | cons c t =>
            simp only [globMatchFuel, if_neg ha1, if_pos ha2]
            exact ih g' ps t (by simp at hf hg ⊢; omega) (by simp at hf hg ⊢; omega)
        · by_cases ha3 : a = '['
          · cases s with
            | nil => simp only [globMatchFuel, if_neg ha1, if_neg ha2, if_pos ha3]
            | cons c t =>
              simp only [globMatchFuel, if_neg ha1, if_neg ha2, if_pos ha3]
              cases hpc : parseClassBody ps with
              | none =>
                simp only [hpc]
                rw [ih g' ps t (by simp at hf hg ⊢; omega) (by simp at hf hg ⊢; omega)]
              | some v =>
                obtain ⟨neg, body, rest⟩ := v
                simp only [hpc]
                have hrest := parseClassBody_length ps neg body rest hpc
                rw [ih g' rest t (by simp at hf hg ⊢; omega) (by simp at hf hg ⊢; omega)]
          · cases s with
            | nil => simp only [globMatchFuel, if_neg ha1, if_neg ha2, if_neg ha3]
            | cons c t =>
              simp only [globMatchFuel, if_neg ha1, if_neg ha2, if_neg ha3]
              rw [ih g' ps t (by simp at hf hg ⊢; omega) (by simp at hf hg ⊢; omega)]

theorem mem_after_rel (S D patterns : List String) (p : String) :
    p ∈ after_rel S D patterns
      ↔ (if eligible patterns p = true then p ∈ S else p ∈ D) := by
  unfold after_rel
  rw [List.mem_append, List.mem_filter, List.mem_filter, List.mem_dedup,
    mem_filter_tree]
  by_cases he : eligible patterns p = true
  · by_cases hs : p ∈ S <;> by_cases hd : p ∈ D <;>
      simp [he, hs, hd, List.mem_dedup, mem_filter_tree]
  · have he' : eligible patterns p = false := by
      cases h : eligible patterns p
      · rfl
      · exact absurd h he
    simp [he', List.mem_dedup, mem_filter_tree]

theorem div_mul_le (a b : Nat) : a / b * b ≤ a := Nat.div_mul_le_self a b

theorem lt_div_mul_add (a b : Nat) (hb : 0 < b) : a < a / b * b + b := by
  have h := Nat.div_add_mod a b
  have hm : a % b < b := Nat.mod_lt _ hb
  rw [Nat.mul_comm (a / b) b]
  generalize ht : b * (a / b) = t at h
  generalize hr : a % b = r at h hm
  omega

theorem cdiv_spec (a b : Nat) (hb : 0 < b) :
    a ≤ cdiv a b * b ∧ cdiv a b * b < a + b := by
  unfold cdiv
  have h := Nat.div_add_mod (a + b - 1) b
  have hm : (a + b - 1) % b < b := Nat.mod_lt _ hb
  rw [Nat.mul_comm ((a + b - 1) / b) b]
  generalize ht : b * ((a + b - 1) / b) = t at h
  generalize hr : (a + b - 1) % b = r at h hm
  omega

theorem cdiv_le_iff (a b k : Nat) (hb : 0 < b) : cdiv a b ≤ k ↔ a ≤ k * b := by
  obtain ⟨h1, h2⟩ := cdiv_spec a b hb
  constructor
  · intro h
    exact le_trans h1 (Nat.mul_le_mul_right b h)
  · intro h
    by_contra hc
    push_neg at hc
    have h3 : (k + 1) * b ≤ cdiv a b * b := Nat.mul_le_mul_right b hc
    rw [Nat.succ_mul] at h3
    generalize hu : k * b = u at h h3
    generalize hv : cdiv a b * b = v at h2 h3
    omega

theorem div_le_of_le_mul (a b k : Nat) (hb : 0 < b) (h : a ≤ k * b) : a / b ≤ k := by
  have h1 : a / b * b ≤ k * b := le_trans (div_mul_le a b) h
  exact Nat.le_of_mul_le_mul_right h1 hb

/-- The two candidate values of Pillow's rounding helpers. -/
theorem round_aspect_w_cases (num b : Nat) :
    round_aspect_w num b = max (num / b) 1
      ∨ round_aspect_w num b = max (cdiv num b) 1 := by
  unfold round_aspect_w
  split
  · exact Or.inl rfl
  · exact Or.inr rfl

theorem round_aspect_h_cases (num b : Nat) :
    round_aspect_h num b = max (num / b) 1
      ∨ round_aspect_h num b = max (cdiv num b) 1 := by
  unfold round_aspect_h
  split
  · exact Or.inl rfl
  · split
    · exact Or.inl rfl
    · exact Or.inr rfl

/-- Upper bound for either rounding candidate. -/
theorem round_candidate_le (num b k r : Nat) (hb : 0 < b) (hk : 1 ≤ k)
    (hnum : num ≤ k * b)
    (hr : r = max (num / b) 1 ∨ r = max (cdiv num b) 1) : r ≤ k := by
  rcases hr with rfl | rfl
  · exact Nat.max_le.mpr ⟨div_le_of_le_mul num b k hb hnum, hk⟩
  · exact Nat.max_le.mpr ⟨(cdiv_le_iff num b k hb).mpr hnum, hk⟩

/-- Either rounding candidate is within one denominator of the exact
scaled value. -/
theorem round_candidate_close (num b r : Nat) (hb : 0 < b)
    (hr : r = max (num / b) 1 ∨ r = max (cdiv num b) 1) :
    num ≤ r * b + b ∧ r * b ≤ num + b := by
  rcases hr with rfl | rfl
  · by_cases hf : num / b = 0
    · have hlt : num < b := by
        have := lt_div_mul_add num b hb
        rw [hf] at this
        simpa using this
      rw [hf]
      have hmax : max 0 1 = 1 := rfl
      rw [hmax]
      omega
    · have h1 : 1 ≤ num / b := Nat.one_le_iff_ne_zero.mpr hf
      rw [Nat.max_eq_left h1]
      have h2 := div_mul_le num b
      have h3 := lt_div_mul_add num b hb
      generalize ht : num / b * b = t at h2 h3 ⊢
      omega
  · by_cases hc : cdiv num b = 0
    · have hnum : num = 0 := by
        have := (cdiv_spec num b hb).1
        rw [hc] at this
        omega
      rw [hc, hnum]
      have hmax : max 0 1 = 1 := rfl
      rw [hmax]
      omega
    · have h1 : 1 ≤ cdiv num b := Nat.one_le_iff_ne_zero.mpr hc
      rw [Nat.max_eq_left h1]
      obtain ⟨h2, h3⟩ := cdiv_spec num b hb
      generalize ht : cdiv num b * b = t at h2 h3 ⊢
      omega

theorem natAbs_sub_le_of (a b m : Nat) (h1 : a ≤ b + m) (h2 : b ≤ a + m) :
    ((a : Int) - b).natAbs ≤ m := by omega

/-- Size bounds of the embedded Pillow thumbnail computation: the result
fits the target box, never exceeds the original, is the original when
the original already fits, and preserves the aspect ratio within one
rounding unit (cross-multiplied form). -/
theorem thumbnail_size_spec (w h tw th : Nat) (hw : 0 < w) (hh : 0 < h)
    (htw : 0 < tw) (hth : 0 < th) :
    (thumbnail_size w h tw th).1 ≤ tw ∧ (thumbnail_size w h tw th).2 ≤ th
  ∧ (thumbnail_size w h tw th).1 ≤ w ∧ (thumbnail_size w h tw th).2 ≤ h
  ∧ (w ≤ tw → h ≤ th → thumbnail_size w h tw th = (w, h))
  ∧ (((thumbnail_size w h tw th).1 * h : Int)
      - ((thumbnail_size w h tw th).2 * w : Int)).natAbs ≤ max w h := by
  by_cases hfit : w ≤ tw ∧ h ≤ th
  · have ht : thumbnail_size w h tw th = (w, h) := by
      unfold thumbnail_size
      rw [if_pos hfit]
    rw [ht]
    refine ⟨hfit.1, hfit.2, le_refl w, le_refl h, fun _ _ => rfl, ?_⟩
    have hz : ((w : Int) * h) - ((h : Int) * w) = 0 := by ring
    simp only []
    rw [hz]
    simp
  · by_cases hbr : w * th ≤ tw * h
    · have ht : thumbnail_size w h tw th = (round_aspect_w (th * w) h, th) := by
        unfold thumbnail_size
        rw [if_neg hfit, if_pos hbr]
      rw [ht]
      set r := round_aspect_w (th * w) h with hrdef
      have hcases := round_aspect_w_cases (th * w) h
      rw [← hrdef] at hcases
      have hth_lt : th < h := by
        by_contra hcon
        push_neg at hcon
        have h1 : tw * h ≤ tw * th := Nat.mul_le_mul_left tw hcon
        have h2 : w * th ≤ tw * th := le_trans hbr h1
        exact hfit ⟨Nat.le_of_mul_le_mul_right h2 hth, hcon⟩
      have hnum_tw : th * w ≤ tw * h := by
        rw [Nat.mul_comm th w]
        exact hbr
      have hnum_w : th * w ≤ w * h := by
        have h1 : th * w ≤ h * w := Nat.mul_le_mul_right w (le_of_lt hth_lt)
        rwa [Nat.mul_comm h w] at h1
      have hr_le_tw : r ≤ tw := round_candidate_le (th * w) h tw r hh htw hnum_tw hcases
      have hr_le_w : r ≤ w := round_candidate_le (th * w) h w r hh hw hnum_w hcases
      have hclose := round_candidate_close (th * w) h r hh hcases
      refine ⟨hr_le_tw, le_refl th, hr_le_w, le_of_lt hth_lt,
        fun h1 h2 => absurd ⟨h1, h2⟩ hfit, ?_⟩
      simp only []
      rw [← Int.natCast_mul, ← Int.natCast_mul]
      exact le_trans (natAbs_sub_le_of (r * h) (th * w) h hclose.2 hclose.1)
        (Nat.le_max_right w h)
    · have ht : thumbnail_size w h tw th = (tw, round_aspect_h (tw * h) w) := by
        unfold thumbnail_size
        rw [if_neg hfit, if_neg hbr]
      rw [ht]
      set r := round_aspect_h (tw * h) w with hrdef
      have hcases := round_aspect_h_cases (tw * h) w
      rw [← hrdef] at hcases
      have hbr' : tw * h < w * th := Nat.lt_of_not_le hbr
      have htw_lt : tw < w := by
        by_contra hcon
        push_neg at hcon
        have h1 : w * th ≤ tw * th := Nat.mul_le_mul_right th hcon
        have h2 : tw * h < tw * th := lt_of_lt_of_le hbr' h1
        exact hfit ⟨hcon, le_of_lt (Nat.lt_of_mul_lt_mul_left h2)⟩
      have hnum_th : tw * h ≤ th * w := by
        have h1 := le_of_lt hbr'
        rwa [Nat.mul_comm w th] at h1
      have hnum_h : tw * h ≤ h * w := by
        have h1 : tw * h ≤ w * h := Nat.mul_le_mul_right h (le_of_lt htw_lt)
        rwa [Nat.mul_comm w h] at h1
      have hr_le_th : r ≤ th := round_candidate_le (tw * h) w th r hw hth hnum_th hcases
      have hr_le_h : r ≤ h := round_candidate_le (tw * h) w h r hw hh hnum_h hcases
      have hclose := round_candidate_close (tw * h) w r hw hcases
      refine ⟨le_refl tw, hr_le_th, le_of_lt htw_lt, hr_le_h,
        fun h1 h2 => absurd ⟨h1, h2⟩ hfit, ?_⟩
      simp only []
      rw [← Int.natCast_mul, ← Int.natCast_mul]
      exact le_trans (natAbs_sub_le_of (tw * h) (r * w) w hclose.1 hclose.2)
        (Nat.le_max_left w h)

/-! Claim theorems. -/

/-- Claim C1: after a full (successful) run of `sync_images`, an
eligible relative path is present under the destination root exactly
when it is present under the source root, and a relative path filtered
out by the pattern set is present under the destination exactly when it
was there before the run — it is left untouched even when absent from
the source. -/
theorem sync_full_run_invariant (S D patterns : List String) (sr dr : String)
    (p : String) :
    (eligible patterns p = true →
      (pjoin dr p ∈ sync_run S D patterns sr dr ↔ p ∈ S))
  ∧ (eligible patterns p = false →
      (pjoin dr p ∈ sync_run S D patterns sr dr ↔ p ∈ D)) := by
  constructor
  · intro he
    rw [mem_sync_run, if_pos he]
  · intro he
    rw [mem_sync_run, if_neg (by simp [he])]

/-- Witness for claim C1 at a concrete pair of trees: the eligible
source file appears under the destination after the run, and the
non-eligible destination file survives although it has no source
counterpart. -/
theorem sync_full_run_invariant_witness :
    (pjoin "dst" "a.jpg" ∈
        sync_run ["a.jpg"] ["old.jpg", "notes.txt"] ["*.jpg"] "src" "dst"
      ↔ "a.jpg" ∈ ["a.jpg"])
  ∧ (pjoin "dst" "notes.txt" ∈
        sync_run ["a.jpg"] ["old.jpg", "notes.txt"] ["*.jpg"] "src" "dst"
      ↔ "notes.txt" ∈ ["old.jpg", "notes.txt"]) :=
  ⟨(sync_full_run_invariant ["a.jpg"] ["old.jpg", "notes.txt"] ["*.jpg"]
      "src" "dst" "a.jpg").1 (by decide),
   (sync_full_run_invariant ["a.jpg"] ["old.jpg", "notes.txt"] ["*.jpg"]
      "src" "dst" "notes.txt").2 (by decide)⟩

/-- Claim C2: `determine_actions` emits exactly one copy action for each
relative path in source minus destination, exactly one delete action for
each relative path in destination minus source, and nothing else; the
counts depend only on membership, so input order and duplicates are
irrelevant, as after the set materialization in the source. -/
theorem determine_actions_exact_diff (S D : List String) (sr dr : String) :
    (∀ p, (determine_actions S D sr dr).count
        (Action.copy (pjoin sr p) (pjoin dr p)) = if p ∈ S ∧ p ∉ D then 1 else 0)
  ∧ (∀ p, (determine_actions S D sr dr).count
        (Action.delete (pjoin dr p)) = if p ∈ D ∧ p ∉ S then 1 else 0)
  ∧ (∀ a ∈ determine_actions S D sr dr,
        (∃ p, p ∈ S ∧ p ∉ D ∧ a = Action.copy (pjoin sr p) (pjoin dr p))
      ∨ (∃ p, p ∈ D ∧ p ∉ S ∧ a = Action.delete (pjoin dr p))) := by
  refine ⟨?_, ?_, ?_⟩
  · intro p
    unfold determine_actions
    rw [List.count_append]
    have hz : ((D.dedup.filter (fun p => decide (p ∉ S.dedup))).map
        (fun p => Action.delete (pjoin dr p))).count
        (Action.copy (pjoin sr p) (pjoin dr p)) = 0 := by
      apply List.count_eq_zero_of_not_mem
      simp [List.mem_map]
    rw [hz, Nat.add_zero]
    rw [List.count_map_of_injective _ _ (copy_action_injective sr dr)]
    rw [List.count_eq_of_nodup ((List.nodup_dedup S).filter _)]
    simp [List.mem_filter, List.mem_dedup]
  · intro p
    unfold determine_actions
    rw [List.count_append]
    have hz : ((S.dedup.filter (fun p => decide (p ∉ D.dedup))).map
        (fun p => Action.copy (pjoin sr p) (pjoin dr p))).count
        (Action.delete (pjoin dr p)) = 0 := by
      apply List.count_eq_zero_of_not_mem
      simp [List.mem_map]
    rw [hz, Nat.zero_add]
    rw [List.count_map_of_injective _ _ (delete_action_injective dr)]
    rw [List.count_eq_of_nodup ((List.nodup_dedup D).filter _)]
    simp [List.mem_filter, List.mem_dedup]
  · intro a ha
    unfold determine_actions at ha
    rw [List.mem_append] at ha
    rcases ha with h | h
    · left
      rw [List.mem_map] at h
      obtain ⟨p, hp, rfl⟩ := h
      rw [List.mem_filter] at hp
      refine ⟨p, ?_, ?_, rfl⟩
      · exact List.mem_dedup.mp hp.1
      · simpa [List.mem_dedup] using hp.2
    · right
      rw [List.mem_map] at h
      obtain ⟨p, hp, rfl⟩ := h
      rw [List.mem_filter] at hp
      refine ⟨p, ?_, ?_, rfl⟩
      · exact List.mem_dedup.mp hp.1
      · simpa [List.mem_dedup] using hp.2

/-- Witness for claim C2 on concrete duplicated, unordered inputs: the
path only in source is copied exactly once (despite appearing twice in
the input), the path only in destination is deleted exactly once, and
the shared path generates no copy and no delete. -/
theorem determine_actions_exact_diff_witness :
    ((determine_actions ["a.jpg", "c.jpg", "a.jpg"] ["b.jpg", "c.jpg"]
        "s" "d").count (Action.copy (pjoin "s" "a.jpg") (pjoin "d" "a.jpg"))
      = if "a.jpg" ∈ ["a.jpg", "c.jpg", "a.jpg"] ∧ "a.jpg" ∉ ["b.jpg", "c.jpg"]
        then 1 else 0)
  ∧ ((determine_actions ["a.jpg", "c.jpg", "a.jpg"] ["b.jpg", "c.jpg"]
        "s" "d").count (Action.delete (pjoin "d" "b.jpg"))
      = if "b.jpg" ∈ ["b.jpg", "c.jpg"] ∧ "b.jpg" ∉ ["a.jpg", "c.jpg", "a.jpg"]
        then 1 else 0)
  ∧ ((determine_actions ["a.jpg", "c.jpg", "a.jpg"] ["b.jpg", "c.jpg"]
        "s" "d").count (Action.copy (pjoin "s" "c.jpg") (pjoin "d" "c.jpg"))
      = if "c.jpg" ∈ ["a.jpg", "c.jpg", "a.jpg"] ∧ "c.jpg" ∉ ["b.jpg", "c.jpg"]
        then 1 else 0) :=
  ⟨(determine_actions_exact_diff ["a.jpg", "c.jpg", "a.jpg"] ["b.jpg", "c.jpg"]
      "s" "d").1 "a.jpg",
   (determine_actions_exact_diff ["a.jpg", "c.jpg", "a.jpg"] ["b.jpg", "c.jpg"]
      "s" "d").2.1 "b.jpg",
   (determine_actions_exact_diff ["a.jpg", "c.jpg", "a.jpg"] ["b.jpg", "c.jpg"]
      "s" "d").1 "c.jpg"⟩

/-- Claim C3 counterexample: with the destination holding only
`dst/y.jpg` and the plan `[delete dst/x.jpg, delete dst/y.jpg]`, the
delete of the missing `dst/x.jpg` raises; the loop is abandoned, so
nothing is deleted, the still-planned `dst/y.jpg` survives, and the run
never reaches the totals line — whereas the claim says the failure is
tolerated, the run continues to the next action, and the totals are
still reported. -/
theorem executor_abort_counterexample :
    sync_exec (fun _ => false)
        [Action.delete "dst/x.jpg", Action.delete "dst/y.jpg"]
        ["dst/y.jpg"] 0 0
      = ⟨0, 0, ["dst/y.jpg"], false⟩ := by decide

/-- Claim C3 (amended): the `sync_images` action loop has no per-action
error handling — the first raising OS call (an oracle-flagged copy or
delete failure, or a delete of a missing destination path) escapes the
loop to the function-level `logger.catch`, which abandons that action
and every remaining action and skips the end-of-run totals: once a
prefix of the plan ends in failure, appending further actions changes
nothing about the outcome. -/
theorem sync_exec_failure_aborts_rest (oracle : Action → Bool)
    (acts rest : List Action) (fs : List String) (c d : Nat)
    (h : (sync_exec oracle acts fs c d).finished = false) :
    sync_exec oracle (acts ++ rest) fs c d = sync_exec oracle acts fs c d := by
  induction acts generalizing fs c d with
  | nil => simp [sync_exec] at h
  | cons a as ih =>
    by_cases ho : oracle a = true
    · rw [List.cons_append]
      simp [sync_exec, ho]
    · cases a with
      | copy s dst =>
        rw [List.cons_append]
        simp only [sync_exec, ho, if_false] at h ⊢
        exact ih _ _ _ h
      | delete dst =>
        rw [List.cons_append]
        simp only [sync_exec, ho, if_false] at h ⊢
        by_cases hm : dst ∈ fs
        · simp only [hm, if_true] at h ⊢
          exact ih _ _ _ h
        · simp [hm]

/-- Witness for the amended claim C3: a concrete failing delete aborts
the run and makes the following delete action irrelevant. -/
theorem sync_exec_failure_aborts_rest_witness :
    (sync_exec (fun _ => false) [Action.delete "dst/x.jpg"] [] 0 0).finished = false
  ∧ sync_exec (fun _ => false)
      ([Action.delete "dst/x.jpg"] ++ [Action.delete "dst/y.jpg"]) [] 0 0
    = sync_exec (fun _ => false) [Action.delete "dst/x.jpg"] [] 0 0 :=
  ⟨by decide,
   sync_exec_failure_aborts_rest (fun _ => false) [Action.delete "dst/x.jpg"]
     [Action.delete "dst/y.jpg"] [] 0 0 (by decide)⟩

/-- Claim C4: for a decoded image of positive dimensions and a positive
size target, the resize keeps both output dimensions within the target
box and within the original dimensions (no upscaling), leaves an
already-fitting image at its original size, keeps the aspect ratio
within one rounding unit (in cross-multiplied form), and under square
mode the output dimensions are exactly the target box. -/
theorem resize_image_bounds (w h W H : Nat) (square : Bool)
    (hw : 0 < w) (hh : 0 < h) (hW : 0 < W) (hH : 0 < H) :
    (square = true → resized_size w h (W, H) square = (W, H))
  ∧ (square = false →
      (resized_size w h (W, H) square).1 ≤ W
    ∧ (resized_size w h (W, H) square).2 ≤ H
    ∧ (resized_size w h (W, H) square).1 ≤ w
    ∧ (resized_size w h (W, H) square).2 ≤ h
    ∧ (w ≤ W → h ≤ H → resized_size w h (W, H) square = (w, h))
    ∧ (((resized_size w h (W, H) square).1 * h : Int)
        - ((resized_size w h (W, H) square).2 * w : Int)).natAbs ≤ max w h) := by
  constructor
  · intro hsq
    simp [resized_size, hsq]
  · intro hsq
    have hr : resized_size w h (W, H) square = thumbnail_size w h W H := by
      simp [resized_size, hsq]
    rw [hr]
    exact thumbnail_size_spec w h W H hw hh hW hH

/-- Witness for claim C4: the spec's own scenarios — a 1000 by 500 image
under square mode at 600 by 600 comes out exactly 600 by 600, and a 2000
by 1000 image at 800 by 800 respects every bound. -/
theorem resize_image_bounds_witness :
    resized_size 1000 500 (600, 600) true = (600, 600)
  ∧ ((resized_size 2000 1000 (800, 800) false).1 ≤ 800
    ∧ (resized_size 2000 1000 (800, 800) false).2 ≤ 800
    ∧ (resized_size 2000 1000 (800, 800) false).1 ≤ 2000
    ∧ (resized_size 2000 1000 (800, 800) false).2 ≤ 1000
    ∧ (2000 ≤ 800 → 1000 ≤ 800 →
        resized_size 2000 1000 (800, 800) false = (2000, 1000))
    ∧ (((resized_size 2000 1000 (800, 800) false).1 * 1000 : Int)
        - ((resized_size 2000 1000 (800, 800) false).2 * 2000 : Int)).natAbs
      ≤ max 2000 1000) :=
  ⟨(resize_image_bounds 1000 500 600 600 true
      (by decide) (by decide) (by decide) (by decide)).1 rfl,
   (resize_image_bounds 2000 1000 800 800 false
      (by decide) (by decide) (by decide) (by decide)).2 rfl⟩

/-- Claim C5: running the sync a second time over unchanged trees
produces zero actions.  The first conjunct identifies `after_rel` as the
relative-path contents of the destination after the first full run
(pointwise equal to the absolute-path semantics `sync_run`); the second
shows the second run's plan over the rescanned trees is empty. -/
theorem second_run_produces_no_actions (S D patterns : List String)
    (sr dr : String) :
    (∀ p, p ∈ after_rel S D patterns ↔ pjoin dr p ∈ sync_run S D patterns sr dr)
  ∧ determine_actions (filter_tree S patterns)
      (filter_tree (after_rel S D patterns) patterns) sr dr = [] := by
  constructor
  · intro p
    rw [mem_after_rel, mem_sync_run]
  · apply determine_actions_nil
    intro p
    rw [mem_filter_tree, mem_filter_tree, mem_after_rel]
    by_cases he : eligible patterns p = true
    · simp [he]
    · simp [he]

/-- Witness for claim C5 at concrete trees. -/
theorem second_run_produces_no_actions_witness :
    (∀ p, p ∈ after_rel ["a.jpg"] ["b.jpg"] ["*.jpg"]
      ↔ pjoin "d" p ∈ sync_run ["a.jpg"] ["b.jpg"] ["*.jpg"] "s" "d")
  ∧ determine_actions (filter_tree ["a.jpg"] ["*.jpg"])
      (filter_tree (after_rel ["a.jpg"] ["b.jpg"] ["*.jpg"]) ["*.jpg"])
      "s" "d" = [] :=
  second_run_produces_no_actions ["a.jpg"] ["b.jpg"] ["*.jpg"] "s" "d"

/-- Claim C6: `filter_tree` passes a path through exactly when at least
one pattern glob-matches the entire relative-path string (Unix
shell-style wildcards, case-sensitively under the POSIX embedding); in
particular `photo.JPG` does not pass `*.jpg`, while `photo.jpg` does and
a nested `a/b.jpg` does (the star crosses the separator). -/
theorem filter_tree_glob_semantics (paths patterns : List String) (p : String) :
    (p ∈ filter_tree paths patterns
      ↔ p ∈ paths ∧ ∃ pat ∈ patterns, fnmatch p pat = true)
  ∧ fnmatch "photo.JPG" "*.jpg" = false
  ∧ fnmatch "photo.jpg" "*.jpg" = true
  ∧ fnmatch "a/b.jpg" "*.jpg" = true := by
  refine ⟨?_, by decide, by decide, by decide⟩
  rw [mem_filter_tree]
  simp [eligible, List.any_eq_true]

/-- Witness for claim C6: the uppercase path is dropped by the filter on
a concrete input. -/
theorem filter_tree_glob_semantics_witness :
    ("photo.JPG" ∈ filter_tree ["photo.JPG"] ["*.jpg"]
      ↔ "photo.JPG" ∈ ["photo.JPG"]
        ∧ ∃ pat ∈ ["*.jpg"], fnmatch "photo.JPG" pat = true)
  ∧ fnmatch "photo.JPG" "*.jpg" = false
  ∧ fnmatch "photo.jpg" "*.jpg" = true
  ∧ fnmatch "a/b.jpg" "*.jpg" = true :=
  filter_tree_glob_semantics ["photo.JPG"] ["*.jpg"] "photo.JPG"

/-- Claim C7 counterexample: a decoded image whose in-memory mode `RGBA`
carries an alpha channel but whose original format is `TIFF` (not `PNG`)
destined for a `.jpg` path is saved directly, not composited onto a
white canvas with an alpha mask as the claim requires for every
original format with an alpha channel. -/
theorem alpha_flatten_counterexample :
    modeHasAlpha "RGBA" = true
  ∧ isJpgSuffix ".jpg" = true
  ∧ save_branch "TIFF" "RGBA" ".jpg" = SaveBranch.direct
  ∧ SaveBranch.direct ≠ SaveBranch.maskComposite := by decide

/-- Claim C7 (amended): for a JPEG-suffixed destination the white-canvas
mask composite is applied exactly when the decoded original format is
`PNG` and the in-memory mode is still `RGBA`; the maskless white paste
exactly when the original format is `GIF`; every other combination —
including non-PNG formats whose images carry an alpha channel — is
re-encoded directly in its current in-memory form. -/
theorem save_branch_characterization (fmt mode suffix : String) :
    (save_branch fmt mode suffix = SaveBranch.maskComposite
      ↔ fmt = "PNG" ∧ mode = "RGBA" ∧ isJpgSuffix suffix = true)
  ∧ (save_branch fmt mode suffix = SaveBranch.plainPaste
      ↔ fmt = "GIF" ∧ isJpgSuffix suffix = true)
  ∧ (save_branch fmt mode suffix = SaveBranch.direct
      ↔ ¬(fmt = "PNG" ∧ mode = "RGBA" ∧ isJpgSuffix suffix = true)
        ∧ ¬(fmt = "GIF" ∧ isJpgSuffix suffix = true)) := by
  unfold save_branch
  by_cases h1 : fmt = "PNG" ∧ mode = "RGBA" ∧ isJpgSuffix suffix = true
  · have hgif : ¬(fmt = "GIF" ∧ isJpgSuffix suffix = true) := by
      rintro ⟨hg, _⟩
      rw [h1.1] at hg
      exact absurd hg (by decide)
    simp [h1, hgif]
  · by_cases h2 : fmt = "GIF" ∧ isJpgSuffix suffix = true
    · simp [h1, h2]
    · simp [h1, h2]

/-- Witness for the amended claim C7 at the three concrete branch
selections. -/
theorem save_branch_characterization_witness :
    (save_branch "PNG" "RGBA" ".JPG" = SaveBranch.maskComposite
      ↔ "PNG" = "PNG" ∧ "RGBA" = "RGBA" ∧ isJpgSuffix ".JPG" = true)
  ∧ (save_branch "PNG" "RGBA" ".JPG" = SaveBranch.plainPaste
      ↔ "PNG" = "GIF" ∧ isJpgSuffix ".JPG" = true)
  ∧ (save_branch "PNG" "RGBA" ".JPG" = SaveBranch.direct
      ↔ ¬("PNG" = "PNG" ∧ "RGBA" = "RGBA" ∧ isJpgSuffix ".JPG" = true)
        ∧ ¬("PNG" = "GIF" ∧ isJpgSuffix ".JPG" = true)) :=
  save_branch_characterization "PNG" "RGBA" ".JPG"

/-- Claim C8: when the copied destination file cannot be decoded as an
image, `resize_image` logs a warning and returns with the file bytes
untouched — byte-identical to the fresh copy — and raises nothing, so
the run is not failed. -/
theorem resize_image_undecodable {Img : Type} (decode : List UInt8 → Option Img)
    (render : Img → Nat × Nat → Bool → String → List UInt8)
    (bytes : List UInt8) (size : Nat × Nat) (square : Bool) (suffix : String)
    (h : decode bytes = none) :
    resize_image decode render bytes size square suffix = (bytes, true) := by
  unfold resize_image
  rw [h]

/-- Witness for claim C8 with a concrete undecodable byte list. -/
theorem resize_image_undecodable_witness :
    resize_image (fun _ => (none : Option Unit)) (fun _ _ _ _ => [])
      [55] (800, 800) false ".jpg" = ([55], true) :=
  resize_image_undecodable (fun _ => (none : Option Unit)) (fun _ _ _ _ => [])
    [55] (800, 800) false ".jpg" rfl

/-- Claim C9 counterexample: a root containing a single symbolic link to
a directory — not a regular file — is scanned as the one-element path
list, while the tree contains no regular file at all: `scan_tree` yields
every non-directory entry, not exactly the regular files. -/
theorem scan_tree_symlink_counterexample :
    scan_tree "" (FSForest.cons (FSEntry.symlinkDir "s" FSForest.nil) FSForest.nil)
      = ["s"]
  ∧ regular_files ""
      (FSForest.cons (FSEntry.symlinkDir "s" FSForest.nil) FSForest.nil) = [] :=
  ⟨rfl, rfl⟩

/-- Claim C9 (amended): `scan_tree` yields exactly the non-directory
entries — regular files, symbolic links of any kind, special files — at
any depth reachable through real directories, each as a path relative to
the root; directory-type is checked without following links, so the
target of a symbolic link to a directory is never traversed (no `Yields`
rule descends into a link target) and a cyclic link cannot cause
infinite traversal. -/
theorem scan_tree_yields_iff : ∀ (pre : String) (es : FSForest) (p : String),
    p ∈ scan_tree pre es ↔ Yields pre es p
  | pre, FSForest.nil, p => by
    simp only [scan_tree, List.not_mem_nil, false_iff]
    intro h
    cases h
  | pre, FSForest.cons (FSEntry.file n) es, p => by
    simp only [scan_tree, List.mem_cons]
    rw [scan_tree_yields_iff pre es p]
    constructor
    · rintro (rfl | h)
      · exact Yields.headFile pre n es
      · exact Yields.tail _ _ _ _ h
    · intro h
      cases h with
      | headFile => exact Or.inl rfl
      | tail _ _ _ _ h => exact Or.inr h
  | pre, FSForest.cons (FSEntry.dir n cs) es, p => by
    simp only [scan_tree, List.mem_append]
    rw [scan_tree_yields_iff (rjoin pre n) cs p, scan_tree_yields_iff pre es p]
    constructor
    · rintro (h | h)
      · exact Yields.headDir _ _ _ _ _ h
      · exact Yields.tail _ _ _ _ h
    · intro h
      cases h with
      | headDir _ _ _ _ _ h => exact Or.inl h
      | tail _ _ _ _ h => exact Or.inr h
  | pre, FSForest.cons (FSEntry.symlinkDir n t) es, p => by
    simp only [scan_tree, List.mem_cons]
    rw [scan_tree_yields_iff pre es p]
    constructor
    · rintro (rfl | h)
      · exact Yields.headSymlinkDir pre n t es
      · exact Yields.tail _ _ _ _ h
    · intro h
      cases h with
      | headSymlinkDir => exact Or.inl rfl
      | tail _ _ _ _ h => exact Or.inr h
  | pre, FSForest.cons (FSEntry.special n) es, p => by
    simp only [scan_tree, List.mem_cons]
    rw [scan_tree_yields_iff pre es p]
    constructor
    · rintro (rfl | h)
      · exact Yields.headSpecial pre n es
      · exact Yields.tail _ _ _ _ h
    · intro h
      cases h with
      | headSpecial => exact Or.inl rfl
      | tail _ _ _ _ h => exact Or.inr h

/-- Witness for the amended claim C9 on a concrete nested tree. -/
theorem scan_tree_yields_iff_witness :
    "a/x.jpg" ∈ scan_tree ""
        (FSForest.cons
          (FSEntry.dir "a" (FSForest.cons (FSEntry.file "x.jpg") FSForest.nil))
          FSForest.nil)
      ↔ Yields ""
          (FSForest.cons
            (FSEntry.dir "a" (FSForest.cons (FSEntry.file "x.jpg") FSForest.nil))
            FSForest.nil) "a/x.jpg" :=
  scan_tree_yields_iff ""
    (FSForest.cons
      (FSEntry.dir "a" (FSForest.cons (FSEntry.file "x.jpg") FSForest.nil))
      FSForest.nil) "a/x.jpg"

/-- Claim C10: the action sequence of `determine_actions` is a block of
copy actions followed by a block of delete actions, so no delete ever
precedes a copy in the output. -/
theorem determine_actions_copies_first (S D : List String) (sr dr : String) :
    ∃ copies deletes, determine_actions S D sr dr = copies ++ deletes
      ∧ (∀ a ∈ copies, ∃ s t, a = Action.copy s t)
      ∧ (∀ a ∈ deletes, ∃ t, a = Action.delete t) := by
  refine ⟨_, _, rfl, ?_, ?_⟩
  · intro a ha
    rw [List.mem_map] at ha
    obtain ⟨p, _, rfl⟩ := ha
    exact ⟨_, _, rfl⟩
  · intro a ha
    rw [List.mem_map] at ha
    obtain ⟨p, _, rfl⟩ := ha
    exact ⟨_, rfl⟩

/-- Witness for claim C10 at concrete inputs. -/
theorem determine_actions_copies_first_witness :
    ∃ copies deletes,
      determine_actions ["a.jpg"] ["b.jpg"] "s" "d" = copies ++ deletes
      ∧ (∀ a ∈ copies, ∃ s t, a = Action.copy s t)
      ∧ (∀ a ∈ deletes, ∃ t, a = Action.delete t) :=
  determine_actions_copies_first ["a.jpg"] ["b.jpg"] "s" "d"

end SyncResize
